import Mathlib

/-!
# Verification of the cervo batching / scheduling core

Shallow embedding of the cervo inference library core (crates
`cervo-core` and `cervo-runtime`), translated from the Rust source:

* `crates/cervo-core/src/batcher.rs` and
  `crates/cervo-core/src/batcher/scratch.rs` — `ScratchPadData`,
  `ScratchPad`, `Batcher` and its `execute` chunking loop;
* `crates/cervo-core/src/inferer/fixed.rs` — `fixup_sizes`,
  `FixedBatchInferer::select_batch_size`;
* `crates/cervo-core/src/epsilon.rs` — `ConstantGenerator`,
  `EpsilonInjector::infer_raw`, `EpsilonInjectorWrapper::invoke`;
* `crates/cervo-runtime/src/runtime.rs`, `runtime/ticket.rs`,
  `state.rs`, `timing.rs` — tickets, `run_for_non_threaded`,
  `ModelState::can_run_in_time`, `TimingBucket::scaled_mean`.

`f32` observation data and durations are modelled as exact rationals
(`ℚ`); `u64`/`u16`/`usize` counters as `ℕ` (no arithmetic here gets
near overflow and none wraps in the source).  Rust panics and `Err`
returns are modelled as `Option.none`.  A possibly non-terminating
`while` loop is modelled with explicit fuel, `none` standing for
divergence.
-/

namespace Cervo

/-! ## ScratchPadData (`batcher/scratch.rs`) -/

/-- A resize in the sense of `Vec::resize(n, v)`: truncate to `n`
elements or pad with `v` up to `n` elements. -/
def listResize (l : List ℚ) (n : Nat) (v : ℚ) : List ℚ :=
  if n ≤ l.length then l.take n else l ++ List.replicate (n - l.length) v

/-- Writing `v` over the segment of `l` that starts at `start`
(`copy_from_slice` into a subslice). Caller guarantees bounds. -/
def listWriteAt (l : List ℚ) (start : Nat) (v : List ℚ) : List ℚ :=
  l.take start ++ v ++ l.drop (start + v.length)

/-- One slot of the scratch pad: `ScratchPadData` in `scratch.rs`. -/
structure ScratchPadData where
  name : String
  data : List ℚ
  count : Nat
deriving Repr, DecidableEq, Inhabited

/-- `ScratchPadData::reserve`: `self.data.resize(batch_size * self.count, 0.0)`. -/
def ScratchPadData.reserve (s : ScratchPadData) (batchSize : Nat) : ScratchPadData :=
  { s with data := listResize s.data (batchSize * s.count) 0 }

/-- `ScratchPadData::new(name, count, capacity)`. -/
def ScratchPadData.new (name : String) (count capacity : Nat) : ScratchPadData :=
  ScratchPadData.reserve { name := name, data := [], count := count } capacity

/-- `ScratchPadData::view(range)`: `data[range.start*count .. range.end*count]`. -/
def ScratchPadData.view (s : ScratchPadData) (lo hi : Nat) : List ℚ :=
  (s.data.take (hi * s.count)).drop (lo * s.count)

/-! ## ScratchPad (`batcher/scratch.rs`) -/

structure ScratchPad where
  inputs : List ScratchPadData
  outputs : List ScratchPadData
  ids : List Nat
  batch_size : Nat
  capacity : Nat
deriving Repr, DecidableEq

/-- `ScratchPad::new_with_size(inputs, outputs, capacity)`. -/
def ScratchPad.new_with_size (ins outs : List (String × List Nat)) (capacity : Nat) :
    ScratchPad where
  inputs := ins.map fun p => ScratchPadData.new p.1 p.2.prod capacity
  outputs := outs.map fun p => ScratchPadData.new p.1 p.2.prod capacity
  ids := []
  batch_size := 0
  capacity := capacity

/-- `DEFAULT_CAPACITY` in `scratch.rs`. -/
def DEFAULT_CAPACITY : Nat := 6

/-- `ScratchPad::new_for_shapes`. -/
def ScratchPad.new_for_shapes (ins outs : List (String × List Nat)) : ScratchPad :=
  ScratchPad.new_with_size ins outs DEFAULT_CAPACITY

/-- `ScratchPad::next(id)`: bump the batch size, record the id, and on
overflowing the capacity double it and re-reserve every *input* slot
(the source touches only `self.inputs`). -/
def ScratchPad.next (pad : ScratchPad) (id : Nat) : ScratchPad :=
  let pad := { pad with batch_size := pad.batch_size + 1, ids := pad.ids ++ [id] }
  if pad.capacity < pad.batch_size then
    { pad with
      capacity := pad.capacity * 2
      inputs := pad.inputs.map fun s => s.reserve (pad.capacity * 2) }
  else pad

/-- `ScratchPad::push(slot, data)`: copy `data` over input row
`batch_size - 1` of slot `slot`.  `copy_from_slice` panics unless the
lengths agree and the slice is in bounds; panic is `none`. -/
def ScratchPad.push (pad : ScratchPad) (slot : Nat) (data : List ℚ) : Option ScratchPad :=
  match pad.inputs[slot]? with
  | none => none
  | some s =>
    if data.length = s.count ∧ pad.batch_size * s.count ≤ s.data.length then
      some { pad with
        inputs := pad.inputs.set slot
          { s with data := listWriteAt s.data ((pad.batch_size - 1) * s.count) data } }
    else none

/-- `ScratchPad::chunk(offset, size)`: clamp `size` to the remaining
batch, deduct it, and answer the size of the view produced. -/
def ScratchPad.chunk (pad : ScratchPad) (size : Nat) : ScratchPad × Nat :=
  let size := min size pad.batch_size
  ({ pad with batch_size := pad.batch_size - size }, size)

/-! ## Batcher (`batcher.rs`) -/

/-- `Batcher::push(id, state)`: `scratch.next(id)`, then for each
`(k, v)` in the state find the input slot named `k` (error if absent)
and `scratch.push` into it. -/
def Batcher.push (pad : ScratchPad) (id : Nat) (state : List (String × List ℚ)) :
    Option ScratchPad :=
  go (pad.next id) state
where
  go : ScratchPad → List (String × List ℚ) → Option ScratchPad
    | pad, [] => some pad
    | pad, (k, v) :: rest =>
      match pad.inputs.findIdx? (fun s => s.name = k) with
      | none => none
      | some slot =>
        match pad.push slot v with
        | none => none
        | some pad => go pad rest

/-- `Batcher::extend(iter)`: `push` in sequence. -/
def Batcher.extend (pad : ScratchPad) : List (Nat × List (String × List ℚ)) → Option ScratchPad
  | [] => some pad
  | (id, st) :: rest =>
    match Batcher.push pad id st with
    | none => none
    | some pad => Batcher.extend pad rest

/-- An inferer acting on a view: given the input and output slots of
the pad and the view range `[lo, hi)`, produce updated slots.  The
`ScratchPadView` API exposes only slot data, so `infer_raw` can touch
nothing else of the pad. -/
def InferAction : Type :=
  List ScratchPadData → List ScratchPadData → Nat → Nat →
    List ScratchPadData × List ScratchPadData

/-- The chunking `while` loop of `Batcher::execute`: while the pad has
remaining items, ask `sel` (the inferer's `select_batch_size`) for a
chunk size, carve a view off the pad, run the inferer on it and
advance the offset by the preferred size.  Fuel models the loop
counter; `none` is divergence (a strategy answering `0` never makes
progress).  Also returns the sizes of the views passed to `infer_raw`,
in order. -/
def executeLoop (sel : Nat → Nat) (infer : InferAction) :
    Nat → ScratchPad → Nat → Option (ScratchPad × List Nat)
  | 0, pad, _ =>
    if pad.batch_size = 0 then some (pad, []) else none
  | fuel + 1, pad, offset =>
    if pad.batch_size = 0 then some (pad, [])
    else
      let preferred := sel pad.batch_size
      let chunked := pad.chunk preferred
      let slots := infer chunked.1.inputs chunked.1.outputs offset (offset + chunked.2)
      let pad2 := { chunked.1 with inputs := slots.1, outputs := slots.2 }
      match executeLoop sel infer fuel pad2 (offset + preferred) with
      | some (pad3, sizes) => some (pad3, chunked.2 :: sizes)
      | none => none

/-- One per-agent response: for each output slot, the slot name paired
with that agent's row of the slot data (the scatter step of
`Batcher::execute`). -/
def responseRow (pad : ScratchPad) (idx : Nat) : List (String × List ℚ) :=
  pad.outputs.map fun s => (s.name, (s.data.take ((idx + 1) * s.count)).drop (idx * s.count))

/-- `Batcher::execute(inferer)`: drive the chunk loop, check the
output-name assertion, scatter one response per id and drain the id
list.  Returns the association list the `HashMap` is built from
(insertion order `ids.drain(..).zip(outputs)`) plus the final pad. -/
def Batcher.execute (sel : Nat → Nat) (infer : InferAction)
    (outputNames : List String) (pad : ScratchPad) :
    Option (List (Nat × List (String × List ℚ)) × ScratchPad) :=
  match executeLoop sel infer pad.batch_size pad 0 with
  | none => none
  | some (pad, _) =>
    if pad.outputs.map ScratchPadData.name = outputNames then
      let responses := (List.range pad.ids.length).map (responseRow pad)
      some (pad.ids.zip responses, { pad with ids := [] })
    else none

/-! ## FixedBatchInferer (`inferer/fixed.rs`) -/

/-- `fixup_sizes`: append `1` when missing, sort ascending, reverse. -/
def fixup_sizes (sizes : List Nat) : List Nat :=
  let sizes := if 1 ∈ sizes then sizes else sizes ++ [1]
  (sizes.insertionSort (· ≤ ·)).reverse

/-- `FixedBatchInferer::select_batch_size(max_count)`: first plan size
(descending order) that is `≤ max_count`; the source `unwrap`s, here
`none` models the panic. -/
def select_batch_size (sizes : List Nat) (maxCount : Nat) : Option Nat :=
  sizes.find? (fun size => size ≤ maxCount)

/-- The `select_batch_size` of a `FixedBatchInferer` as a plain
strategy function for the batcher loop (`unwrap` panic mapped to `0`,
which the loop treats as divergence). -/
def fixedSel (sizes : List Nat) (maxCount : Nat) : Nat :=
  (select_batch_size (fixup_sizes sizes) maxCount).getD 0

/-- An `InferAction` that writes nothing (the data flow is irrelevant
to chunking claims). -/
def idInfer : InferAction := fun ins outs _ _ => (ins, outs)

/-- A pad holding `n` queued batch elements and no slots, for driving
the chunk loop on its own. -/
def padOf (n : Nat) : ScratchPad :=
  { inputs := [], outputs := [], ids := List.range n, batch_size := n, capacity := n }

/-! ## Timing estimator (`cervo-runtime/src/timing.rs`, `state.rs`)

Durations and the Welford mean are modelled as exact rationals; the
`mean` field stands for the bucket's current mean execution time. -/

structure TimingBucket where
  size : Nat
  mean : ℚ
deriving Repr, DecidableEq

instance : Inhabited TimingBucket := ⟨⟨0, 0⟩⟩

/-- `TimingBucket::scaled_mean(to_size)`:
`ratio = size / to_size; mean / ratio`, i.e. `mean * to_size / size`. -/
def TimingBucket.scaled_mean (b : TimingBucket) (toSize : Nat) : ℚ :=
  b.mean * toSize / b.size

/-- `ModelState::can_run_in_time(duration)` for a model whose queued
batch size is `n`.  `partition_point(|b| b.size <= size)` on the
sorted bucket list is the length of the `takeWhile` prefix;
`timings.last().unwrap()` and the `timings[i]` indexings are modelled
with `getD` (they are in bounds in every reachable branch). -/
def can_run_in_time (timings : List TimingBucket) (n : Nat) (budget : ℚ) : Bool :=
  if timings.isEmpty then true
  else
    let p := (timings.takeWhile (fun b => decide (b.size ≤ n))).length
    if p = timings.length then
      decide ((timings.getD (timings.length - 1) default).scaled_mean n ≤ budget)
    else
      let elem := timings.getD p default
      if elem.size = n then decide (elem.mean ≤ budget)
      else if p = 0 then decide ((timings.getD 0 default).scaled_mean n ≤ budget)
      else decide ((timings.getD (p - 1) default).scaled_mean n ≤ budget)

/-! ## Epsilon injection (`cervo-core/src/epsilon.rs`) -/

/-- `ConstantGenerator` with its three constructors, exactly as in the
source (`zeros` is `Self::for_value(1.0)` there). -/
structure ConstantGenerator where
  value : ℚ
deriving Repr, DecidableEq

def ConstantGenerator.for_value (v : ℚ) : ConstantGenerator := ⟨v⟩

def ConstantGenerator.zeros : ConstantGenerator := ConstantGenerator.for_value 1

def ConstantGenerator.ones : ConstantGenerator := ConstantGenerator.for_value 1

/-- `ConstantGenerator::generate(count, out)`: overwrite every element
of `out` with the constant (the `count` argument is unused in the
source). -/
def ConstantGenerator.generate (g : ConstantGenerator) (_count : Nat) (out : List ℚ) :
    List ℚ :=
  out.map fun _ => g.value

/-- Observable events during one wrapped inference call: a generator
writing `count` values into input slot `slot`, or one execution of the
wrapped (innermost) inferer. -/
inductive EpsEvent where
  | generate (slot : Nat) (count : Nat)
  | innerInfer
deriving Repr, DecidableEq

/-- Event trace of the stacked `EpsilonInjector::infer_raw`:
`total = count * view.len()`, generate into the noise slot, then
delegate to the inner inferer once. -/
def EpsilonInjector.infer_raw_trace (index count viewLen : Nat) : List EpsEvent :=
  [EpsEvent.generate index (count * viewLen), EpsEvent.innerInfer]

/-- Event trace of the split-state `EpsilonInjectorWrapper::invoke`:
the source first calls `self.inner.invoke(inferer, batch)?`, then
computes `total = count * view.len()` and generates noise, then calls
`self.inner.invoke(inferer, batch)` again. -/
def EpsilonInjectorWrapper.invoke_trace (index count viewLen : Nat)
    (innerTrace : List EpsEvent) : List EpsEvent :=
  innerTrace ++ EpsEvent.generate index (count * viewLen) :: innerTrace

/-- Event trace of `BaseWrapper::invoke` (the base case of the wrapper
stack): exactly one execution of the inferer. -/
def BaseWrapper.invoke_trace : List EpsEvent := [EpsEvent.innerInfer]

/-! ## Runtime (`cervo-runtime/src/runtime.rs`, `runtime/ticket.rs`)

The `BinaryHeap<Ticket>` with the reversed `Ord` of `ticket.rs` pops
tickets by ascending sequence number; every reachable runtime holds
pairwise distinct sequence numbers, so the heap is modelled by its
sorted-ascending ticket list: pop is `head`, push is ordered
insertion. -/

structure Ticket where
  seq : Nat
  brain : Nat
deriving Repr, DecidableEq

/-- A `ModelState` as `run_for` sees it: its brain id, whether its
batcher is non-empty (`needs_to_execute`), its `can_run_in_time`
verdict as a function of the remaining budget, and the wall-clock cost
of running it (the `elapsed` the source measures). -/
structure ModelT where
  id : Nat
  hasData : Bool
  canRun : ℚ → Bool
  cost : ℚ

structure RuntimeM where
  models : List ModelT
  queue : List Ticket
  ticket_generation : Nat
  brain_generation : Nat

/-- Heap push, on the sorted-list representation. -/
def insertTicket (t : Ticket) : List Ticket → List Ticket
  | [] => [t]
  | u :: rest => if t.seq ≤ u.seq then t :: u :: rest else u :: insertTicket t rest

/-- `Runtime::new()`. -/
def RuntimeM.new : RuntimeM :=
  { models := [], queue := [], ticket_generation := 0, brain_generation := 0 }

/-- `Runtime::add_inferer`: fresh `BrainId`, a new model state with an
empty batcher, and a fresh ticket. -/
def RuntimeM.add_inferer (r : RuntimeM) (canRun : ℚ → Bool) (cost : ℚ) :
    RuntimeM × Nat :=
  ({ models := r.models ++ [⟨r.brain_generation, false, canRun, cost⟩]
     queue := insertTicket ⟨r.ticket_generation, r.brain_generation⟩ r.queue
     ticket_generation := r.ticket_generation + 1
     brain_generation := r.brain_generation + 1 }, r.brain_generation)

/-- `Runtime::push(brain, agent, state)`: locate the model (else
`UnknownBrain`) and queue data into its batcher, making it
non-empty. -/
def RuntimeM.push (r : RuntimeM) (brain : Nat) : Option RuntimeM :=
  if (r.models.find? fun m => m.id == brain).isSome then
    some { r with
      models := r.models.map fun m =>
        if m.id = brain then { m with hasData := true } else m }
  else none

/-- `Runtime::infer_single(brain, state)`: runs one item outside or
through the batcher and records a timing sample; it touches neither
the queue nor `ticket_generation`. -/
def RuntimeM.infer_single (r : RuntimeM) (brain : Nat) : Option RuntimeM :=
  if (r.models.find? fun m => m.id == brain).isSome then some r else none

/-- `Runtime::run` (sequential; `run_non_threaded`): execute every
model whose batcher is non-empty, in model-list order; no queue or
sequence manipulation. -/
def RuntimeM.run (r : RuntimeM) : RuntimeM × List Nat :=
  ({ r with models := r.models.map fun m => { m with hasData := false } },
    ((r.models.filter fun m => m.hasData).map ModelT.id))

/-- The ticket-processing loop of `run_for_non_threaded`: pop tickets
in ascending-sequence order; a model with an empty batcher is
deferred, as is (once anything ran) a model that cannot run within the
remaining budget; otherwise the model runs and its elapsed cost is
saturating-subtracted from the budget.  Returns the executed brain
ids in execution order, the deferred tickets in pop order, and the
remaining budget; `none` models the `UnknownBrain` early return. -/
def run_for_go (models : List ModelT) :
    List Ticket → ℚ → Bool → Option (List Nat × List Ticket × ℚ)
  | [], dur, _ => some ([], [], dur)
  | t :: rest, dur, anyExec =>
    match models.find? fun m => m.id == t.brain with
    | none => none
    | some m =>
      if !m.hasData || (anyExec && !m.canRun dur) then
        match run_for_go models rest dur anyExec with
        | some (e, d, du) => some (e, t :: d, du)
        | none => none
      else
        match run_for_go models rest (max (dur - m.cost) 0) true with
        | some (e, d, du) => some (t.brain :: e, d, du)
        | none => none

/-- `for id in executed { queue.push(Ticket(ticket_generation++, id)) }`. -/
def freshTickets (gen : Nat) : List Nat → List Ticket
  | [] => []
  | b :: bs => ⟨gen, b⟩ :: freshTickets (gen + 1) bs

/-- `Runtime::run_for` (sequential; `run_for_non_threaded`): drain the
queue through the loop, put deferred tickets back with their original
sequence, push a fresh ticket per executed model, and drain the
executed models' batchers. -/
def RuntimeM.run_for (r : RuntimeM) (dur : ℚ) : Option (RuntimeM × List Nat) :=
  match run_for_go r.models r.queue dur false with
  | none => none
  | some (executed, deferred, _) =>
    some ({ r with
      models := r.models.map fun m =>
        if executed.contains m.id then { m with hasData := false } else m
      queue := (deferred ++ freshTickets r.ticket_generation executed).foldl
        (fun q t => insertTicket t q) []
      ticket_generation := r.ticket_generation + executed.length }, executed)

/-- Heap deletion of the first ticket of `brain` (the source pops
until it meets it and re-pushes the prefix). -/
def remove_ticket (brain : Nat) : List Ticket → List Ticket
  | [] => []
  | t :: rest => if t.brain = brain then rest else t :: remove_ticket brain rest

/-- `Runtime::remove_inferer(brain)`: drop the model's pending ticket
and the model itself; `UnknownBrain` if absent.  The `Bool` answers
whether the removed model still had queued data (`OrphanedData`). -/
def RuntimeM.remove_inferer (r : RuntimeM) (brain : Nat) : Option (RuntimeM × Bool) :=
  match r.models.find? fun m => m.id == brain with
  | none => none
  | some m =>
    some ({ r with
      queue := remove_ticket brain r.queue
      models := r.models.filter fun mm => ¬ mm.id = brain }, m.hasData)

/-- `Runtime::clear()`: drop all models, empty the queue and reset
`ticket_generation` to `0` (the source keeps only `brain_generation`);
answers the list of brains that still had queued data
(`OrphanedData`). -/
def RuntimeM.clear (r : RuntimeM) : RuntimeM × List Nat :=
  ({ models := [], queue := [], ticket_generation := 0
     brain_generation := r.brain_generation },
    ((r.models.filter fun m => m.hasData).map ModelT.id))

/-! ## Abstract inferer actions and concrete fixtures -/

/-- `infer_raw` reaches slot data only through the `ScratchPadView`
API, which exposes `&mut [f32]` per slot: the slot names can never
change.  An abstract `InferAction` is admissible when it honours
that. -/
def keepsOutputNames (infer : InferAction) : Prop :=
  ∀ ins outs lo hi,
    ((infer ins outs lo hi).2).map ScratchPadData.name = outs.map ScratchPadData.name

/-- The pad obtained by pushing `(id 7, empty state)` into a batcher
for a model with no inputs and one `("y", [1])` output. -/
def padW : ScratchPad :=
  { inputs := []
    outputs := [{ name := "y", data := List.replicate 6 0, count := 1 }]
    ids := [7]
    batch_size := 1
    capacity := 6 }

/-- The runtime reached from `new` by one `add_inferer` and one
`run_for 0` that defers its only (empty) model. -/
def rwit : RuntimeM :=
  { models := [⟨0, false, fun _ => true, 0⟩]
    queue := [⟨0, 0⟩]
    ticket_generation := 1
    brain_generation := 1 }

/-- Two-model runtime for the C5 witness: model 0 has no queued data,
model 1 does. -/
def rC5 : RuntimeM :=
  { models := [⟨0, false, fun _ => true, 0⟩, ⟨1, true, fun _ => true, 0⟩]
    queue := [⟨0, 0⟩, ⟨1, 1⟩]
    ticket_generation := 2
    brain_generation := 2 }

/-- The runtime `rC5` reaches after `run_for 0` (model 1 executed and
re-ticketed at sequence 2; model 0 deferred at its old sequence 0). -/
def rC5out : RuntimeM :=
  { models := [⟨0, false, fun _ => true, 0⟩, ⟨1, false, fun _ => true, 0⟩]
    queue := [⟨0, 0⟩, ⟨2, 1⟩]
    ticket_generation := 3
    brain_generation := 2 }

/-- Two-model runtime in which both models have queued work and — as
after any fresh start — no timing samples, so `can_run_in_time` is
`true` for any budget. -/
def rC4 : RuntimeM :=
  { models := [⟨0, true, fun _ => true, 0⟩, ⟨1, true, fun _ => true, 0⟩]
    queue := [⟨0, 0⟩, ⟨1, 1⟩]
    ticket_generation := 2
    brain_generation := 2 }

/-- Two-model runtime for the C4 witness: both models hold work, but
model 1's timing data says it cannot run in zero time. -/
def rC4b : RuntimeM :=
  { models := [⟨0, true, fun _ => true, 0⟩, ⟨1, true, fun _ => false, 0⟩]
    queue := [⟨0, 0⟩, ⟨1, 1⟩]
    ticket_generation := 2
    brain_generation := 2 }

/-! ## Lemmas about `fixup_sizes` and `select_batch_size` -/

lemma one_mem_fixup (sizes : List Nat) : 1 ∈ fixup_sizes sizes := by
  unfold fixup_sizes
  by_cases h : 1 ∈ sizes <;>
    simp only [h, if_true, if_false, List.mem_reverse,
      (List.perm_insertionSort _ _).mem_iff] <;> simp [h]

lemma fixup_sorted_desc (sizes : List Nat) :
    (fixup_sizes sizes).Pairwise (fun a b => b ≤ a) := by
  unfold fixup_sizes
  rw [List.pairwise_reverse]
  exact List.sorted_insertionSort (· ≤ ·) _

/-- In a descending-sorted list, `find? (· ≤ n)` answers a maximum
among the elements that are `≤ n`. -/
lemma find_le_is_max {l : List Nat} {n s : Nat}
    (hs : l.Pairwise (fun a b => b ≤ a))
    (h : l.find? (fun t => t ≤ n) = some s) :
    ∀ t ∈ l, t ≤ n → t ≤ s := by
  induction l with
  | nil => simp at h
  | cons a tl ih =>
    rw [List.find?_cons] at h
    by_cases ha : a ≤ n
    · simp only [decide_eq_true ha] at h
      cases h
      intro t ht _
      rcases List.mem_cons.mp ht with rfl | ht
      · exact le_refl t
      · exact (List.pairwise_cons.mp hs).1 t ht
    · simp only [decide_eq_false ha] at h
      intro t ht htn
      rcases List.mem_cons.mp ht with rfl | ht
      · exact absurd htn ha
      · exact ih (List.pairwise_cons.mp hs).2 h t ht htn

/-- `select_batch_size` on a fixed-up size list succeeds for `n ≥ 1`. -/
lemma select_fixup_isSome (sizes : List Nat) {n : Nat} (hn : 1 ≤ n) :
    ∃ s, select_batch_size (fixup_sizes sizes) n = some s := by
  rcases h : select_batch_size (fixup_sizes sizes) n with _ | s
  · exfalso
    have := List.find?_eq_none.mp h 1 (one_mem_fixup sizes)
    simp [hn] at this
  · exact ⟨s, rfl⟩

/-! ## Termination and coverage of the chunk loop -/

/-- With a strategy honouring the `select_batch_size` contract
(`1 ≤ sel m ≤ m`), the chunk loop of `Batcher::execute` terminates
within `batch_size` iterations, the view sizes sum to the remaining
batch, the final remaining batch is `0` and the id list is untouched. -/
lemma executeLoop_total (sel : Nat → Nat) (infer : InferAction)
    (hsel : ∀ m, 1 ≤ m → 1 ≤ sel m ∧ sel m ≤ m) :
    ∀ (fuel : Nat) (pad : ScratchPad) (offset : Nat), pad.batch_size ≤ fuel →
      ∃ pad2 sizes, executeLoop sel infer fuel pad offset = some (pad2, sizes) ∧
        sizes.sum = pad.batch_size ∧ pad2.batch_size = 0 ∧ pad2.ids = pad.ids := by
  intro fuel
  induction fuel with
  | zero =>
    intro pad offset hle
    have h0 : pad.batch_size = 0 := Nat.le_zero.mp hle
    exact ⟨pad, [], by simp [executeLoop, h0], by simp [h0], h0, rfl⟩
  | succ fuel ih =>
    intro pad offset hle
    by_cases h0 : pad.batch_size = 0
    · exact ⟨pad, [], by simp [executeLoop, h0], by simp [h0], h0, rfl⟩
    · have hbs : 1 ≤ pad.batch_size := Nat.one_le_iff_ne_zero.mpr h0
      obtain ⟨hp1, hp2⟩ := hsel pad.batch_size hbs
      have hmin : min (sel pad.batch_size) pad.batch_size = sel pad.batch_size :=
        Nat.min_eq_left hp2
      set p := sel pad.batch_size with hpdef
      set padA : ScratchPad := { pad with batch_size := pad.batch_size - p } with hA
      set q := infer padA.inputs padA.outputs offset (offset + p) with hq
      set padB : ScratchPad := { padA with inputs := q.1, outputs := q.2 } with hB
      have hle2 : padB.batch_size ≤ fuel := by
        simp only [hB, hA]
        omega
      obtain ⟨pad2, sizes, heq, hsum, hz, hids⟩ := ih padB (offset + p) hle2
      refine ⟨pad2, p :: sizes, ?_, ?_, hz, by rw [hids]⟩
      · simp only [executeLoop, h0, if_false, ScratchPad.chunk, hmin]
        rw [heq]
      · have : padB.batch_size = pad.batch_size - p := rfl
        simp only [List.sum_cons, hsum, this]
        omega

/-- C3 claim, stated: for every inferer strategy returning a value in
`[1, max_count]` and every positive pushed count, `Batcher::execute`'s
chunking loop terminates and the view sizes passed to `infer_raw` sum
to the number of queued items. -/
theorem batcher_chunk_coverage (sel : Nat → Nat) (infer : InferAction) (pad : ScratchPad)
    (hsel : ∀ m, 1 ≤ m → 1 ≤ sel m ∧ sel m ≤ m) (_hpos : 1 ≤ pad.batch_size) :
    ∃ pad2 sizes, executeLoop sel infer pad.batch_size pad 0 = some (pad2, sizes) ∧
      sizes.sum = pad.batch_size := by
  obtain ⟨pad2, sizes, heq, hsum, _, _⟩ :=
    executeLoop_total sel infer hsel pad.batch_size pad 0 (le_refl _)
  exact ⟨pad2, sizes, heq, hsum⟩

/-- Witness for `batcher_chunk_coverage` at the identity strategy
(`select_batch_size(n) = n`, the Dynamic inferer) and three items. -/
theorem batcher_chunk_coverage_witness :
    ∃ pad2 sizes, executeLoop (fun m => m) idInfer (padOf 3).batch_size (padOf 3) 0
      = some (pad2, sizes) ∧ sizes.sum = (padOf 3).batch_size :=
  batcher_chunk_coverage (fun m => m) idInfer (padOf 3)
    (fun m hm => ⟨hm, le_refl m⟩) (by decide)

/-- C2 claim, stated: `select_batch_size(n)` of a `FixedBatchInferer`
answers the largest configured size `≤ n` for every `n ≥ 1`, and a
batch of `15` with sizes `{1, 2, 4, 8}` runs `infer_raw` on views of
sizes `8, 4, 2, 1` in that order. -/
theorem fixed_select_and_trace :
    (∀ (sizes : List Nat) (n : Nat), 1 ≤ n →
      ∃ s, select_batch_size (fixup_sizes sizes) n = some s ∧
        s ∈ fixup_sizes sizes ∧ s ≤ n ∧
        ∀ t ∈ fixup_sizes sizes, t ≤ n → t ≤ s) ∧
    (executeLoop (fixedSel [1, 2, 4, 8]) idInfer 15 (padOf 15) 0).map Prod.snd
      = some [8, 4, 2, 1] := by
  constructor
  · intro sizes n hn
    obtain ⟨s, hs⟩ := select_fixup_isSome sizes hn
    refine ⟨s, hs, List.mem_of_find?_eq_some hs, ?_,
      find_le_is_max (fixup_sorted_desc sizes) hs⟩
    have := List.find?_some hs
    simpa using this
  · decide

/-- Witness for `fixed_select_and_trace` at sizes `[2, 4]`, `n = 3`:
the largest configured size `≤ 3` is selected. -/
theorem fixed_select_witness :
    ∃ s, select_batch_size (fixup_sizes [2, 4]) 3 = some s ∧
      s ∈ fixup_sizes [2, 4] ∧ s ≤ 3 ∧
      ∀ t ∈ fixup_sizes [2, 4], t ≤ 3 → t ≤ s :=
  fixed_select_and_trace.1 [2, 4] 3 (by decide)

/-! ## Push bookkeeping -/

lemma ScratchPad.next_ids (pad : ScratchPad) (id : Nat) :
    (pad.next id).ids = pad.ids ++ [id] ∧
    (pad.next id).batch_size = pad.batch_size + 1 ∧
    (pad.next id).outputs = pad.outputs := by
  simp only [ScratchPad.next]
  split <;> exact ⟨rfl, rfl, rfl⟩

lemma ScratchPad.push_frame {pad pad2 : ScratchPad} {slot : Nat} {v : List ℚ}
    (h : pad.push slot v = some pad2) :
    pad2.ids = pad.ids ∧ pad2.batch_size = pad.batch_size ∧ pad2.outputs = pad.outputs := by
  unfold ScratchPad.push at h
  rcases hs : pad.inputs[slot]? with _ | s
  · simp only [hs] at h
    exact absurd h (by simp)
  · simp only [hs] at h
    by_cases hc : v.length = s.count ∧ pad.batch_size * s.count ≤ s.data.length
    · rw [if_pos hc] at h
      cases h
      exact ⟨rfl, rfl, rfl⟩
    · rw [if_neg hc] at h
      exact absurd h (by simp)

lemma Batcher.push_go_frame :
    ∀ (st : List (String × List ℚ)) {pad pad2 : ScratchPad},
      Batcher.push.go pad st = some pad2 →
      pad2.ids = pad.ids ∧ pad2.batch_size = pad.batch_size ∧ pad2.outputs = pad.outputs := by
  intro st
  induction st with
  | nil =>
    intro pad pad2 h
    simp only [Batcher.push.go] at h
    cases h; exact ⟨rfl, rfl, rfl⟩
  | cons kv rest ih =>
    intro pad pad2 h
    simp only [Batcher.push.go] at h
    rcases hidx : pad.inputs.findIdx? (fun s => s.name = kv.1) with _ | slot
    · simp only [hidx] at h
      exact absurd h (by simp)
    · simp only [hidx] at h
      rcases hp : pad.push slot kv.2 with _ | padm
      · simp only [hp] at h
        exact absurd h (by simp)
      · simp only [hp] at h
        obtain ⟨h1, h2, h3⟩ := ScratchPad.push_frame hp
        obtain ⟨g1, g2, g3⟩ := ih h
        exact ⟨g1.trans h1, g2.trans h2, g3.trans h3⟩

lemma Batcher.push_effect {pad pad2 : ScratchPad} {id : Nat}
    {st : List (String × List ℚ)} (h : Batcher.push pad id st = some pad2) :
    pad2.ids = pad.ids ++ [id] ∧ pad2.batch_size = pad.batch_size + 1 ∧
    pad2.outputs = pad.outputs := by
  unfold Batcher.push at h
  obtain ⟨g1, g2, g3⟩ := Batcher.push_go_frame st h
  obtain ⟨n1, n2, n3⟩ := ScratchPad.next_ids pad id
  exact ⟨g1.trans n1, g2.trans n2, g3.trans n3⟩

lemma Batcher.extend_effect :
    ∀ (batch : List (Nat × List (String × List ℚ))) {pad pad2 : ScratchPad},
      Batcher.extend pad batch = some pad2 →
      pad2.ids = pad.ids ++ batch.map Prod.fst ∧
      pad2.batch_size = pad.batch_size + batch.length ∧
      pad2.outputs = pad.outputs := by
  intro batch
  induction batch with
  | nil =>
    intro pad pad2 h
    simp only [Batcher.extend] at h
    cases h; simp
  | cons e rest ih =>
    intro pad pad2 h
    simp only [Batcher.extend] at h
    rcases hp : Batcher.push pad e.1 e.2 with _ | padm
    · simp only [hp] at h
      exact absurd h (by simp)
    · simp only [hp] at h
      obtain ⟨p1, p2, p3⟩ := Batcher.push_effect hp
      obtain ⟨g1, g2, g3⟩ := ih h
      refine ⟨?_, ?_, g3.trans p3⟩
      · rw [g1, p1]; simp
      · rw [g2, p2]; simp only [List.length_cons]; omega


lemma executeLoop_output_names {sel : Nat → Nat} {infer : InferAction}
    (hnames : keepsOutputNames infer) :
    ∀ (fuel : Nat) (pad : ScratchPad) (offset : Nat) {pad2 : ScratchPad} {sizes : List Nat},
      executeLoop sel infer fuel pad offset = some (pad2, sizes) →
      pad2.outputs.map ScratchPadData.name = pad.outputs.map ScratchPadData.name := by
  intro fuel
  induction fuel with
  | zero =>
    intro pad offset pad2 sizes h
    by_cases h0 : pad.batch_size = 0 <;> simp [executeLoop, h0] at h
    rw [← h.1]
  | succ fuel ih =>
    intro pad offset pad2 sizes h
    by_cases h0 : pad.batch_size = 0
    · simp [executeLoop, h0] at h
      rw [← h.1]
    · simp only [executeLoop, h0, if_false] at h
      set c := pad.chunk (sel pad.batch_size) with hc
      set q := infer c.1.inputs c.1.outputs offset (offset + c.2) with hqd
      set pB : ScratchPad := { c.1 with inputs := q.1, outputs := q.2 } with hpB
      rcases hrec : executeLoop sel infer fuel pB (offset + sel pad.batch_size) with _ | pr
      · simp only [hrec] at h
        exact absurd h (by simp)
      · simp only [hrec] at h
        obtain ⟨p3, sizes3⟩ := pr
        simp only [Option.some.injEq, Prod.mk.injEq] at h
        obtain ⟨hpa, -⟩ := h
        rw [← hpa]
        have hstep := ih pB (offset + sel pad.batch_size) hrec
        rw [hstep]
        show (q.2.map ScratchPadData.name) = pad.outputs.map ScratchPadData.name
        rw [hqd]
        exact hnames _ _ _ _

/-- C1 claim, stated: pushing a batch of states with ids unique within
the batch into a batcher bound to the inferer shapes, `execute`
returns one `Response` per pushed `AgentId`, keyed exactly by the
pushed ids, and leaves the batcher with `batch_size == 0` and an empty
id list.  The inferer honours the `select_batch_size` contract and
(like every `infer_raw`) can only write slot data through the view. -/
theorem batcher_execute_roundtrip
    (ins outs : List (String × List Nat))
    (sel : Nat → Nat) (infer : InferAction)
    (batch : List (Nat × List (String × List ℚ))) (pad : ScratchPad)
    (hsel : ∀ m, 1 ≤ m → 1 ≤ sel m ∧ sel m ≤ m)
    (hnames : keepsOutputNames infer)
    (hnodup : (batch.map Prod.fst).Nodup)
    (hext : Batcher.extend (ScratchPad.new_for_shapes ins outs) batch = some pad) :
    ∃ result pad2,
      Batcher.execute sel infer (outs.map Prod.fst) pad = some (result, pad2) ∧
      result.map Prod.fst = batch.map Prod.fst ∧
      (result.map Prod.fst).Nodup ∧
      pad2.batch_size = 0 ∧ pad2.ids = [] := by
  obtain ⟨hids, hbs, houts⟩ := Batcher.extend_effect batch hext
  obtain ⟨padL, sizes, hloop, hsum, hz, hidsL⟩ :=
    executeLoop_total sel infer hsel pad.batch_size pad 0 (le_refl _)
  have hnm := executeLoop_output_names hnames pad.batch_size pad 0 hloop
  have hcheck : padL.outputs.map ScratchPadData.name = outs.map Prod.fst := by
    rw [hnm, houts]
    simp [ScratchPad.new_for_shapes, ScratchPad.new_with_size, ScratchPadData.new,
      ScratchPadData.reserve, List.map_map, Function.comp]
  have hkeys :
      ((padL.ids.zip ((List.range padL.ids.length).map (responseRow padL))).map Prod.fst)
        = batch.map Prod.fst := by
    rw [List.map_fst_zip]
    · rw [hidsL, hids]
      simp [ScratchPad.new_for_shapes, ScratchPad.new_with_size]
    · simp
  unfold Batcher.execute
  simp only [hloop]
  rw [if_pos hcheck]
  refine ⟨_, _, rfl, hkeys, ?_, hz, rfl⟩
  rw [hkeys]
  exact hnodup


/-- Witness for `batcher_execute_roundtrip`: one pushed agent, one
output slot, identity batch-size strategy. -/
theorem batcher_execute_roundtrip_witness :
    ∃ result pad2,
      Batcher.execute (fun m => m) idInfer ([("y", [1])].map Prod.fst) padW
        = some (result, pad2) ∧
      result.map Prod.fst = [(7, ([] : List (String × List ℚ)))].map Prod.fst ∧
      (result.map Prod.fst).Nodup ∧
      pad2.batch_size = 0 ∧ pad2.ids = [] :=
  batcher_execute_roundtrip [] [("y", [1])] (fun m => m) idInfer
    [(7, [])] padW (fun m hm => ⟨hm, le_refl m⟩) (fun _ _ _ _ => rfl)
    (by decide) (by decide)

/-! ## Epsilon and constant-generator findings -/

/-- C10 claim is false on the code: `ConstantGenerator::zeros()` is
`Self::for_value(1.0)` in the source (its doc comment announces a
generator *for zeros*), so the generator it returns writes `1.0`, not
`0.0`, into every element of the buffers it fills. -/
theorem zeros_generator_writes_ones :
    ConstantGenerator.zeros = ConstantGenerator.for_value 1 ∧
    ConstantGenerator.generate ConstantGenerator.zeros 2 [0, 0] = [1, 1] ∧
    ¬ ConstantGenerator.generate ConstantGenerator.zeros 2 [0, 0] = [0, 0] ∧
    ConstantGenerator.generate (ConstantGenerator.for_value 0) 2 [5, 7] = [0, 0] := by
  refine ⟨rfl, by decide, by decide, by decide⟩

/-- C7 claim is false on the code: on one call over a view of length
`1` with an 8-element noise slot at index `1`, the stacked
`EpsilonInjector::infer_raw` generates the noise and then executes the
inner inferer once, while the split-state
`EpsilonInjectorWrapper::invoke` (over the `BaseWrapper` base case)
executes the inner inferer *twice* — once before the noise is even
generated — so the two forms are not behaviourally equivalent. -/
theorem epsilon_wrapper_double_invoke :
    EpsilonInjector.infer_raw_trace 1 8 1
      = [EpsEvent.generate 1 8, EpsEvent.innerInfer] ∧
    EpsilonInjectorWrapper.invoke_trace 1 8 1 BaseWrapper.invoke_trace
      = [EpsEvent.innerInfer, EpsEvent.generate 1 8, EpsEvent.innerInfer] ∧
    (EpsilonInjector.infer_raw_trace 1 8 1).count EpsEvent.innerInfer = 1 ∧
    (EpsilonInjectorWrapper.invoke_trace 1 8 1 BaseWrapper.invoke_trace).count
      EpsEvent.innerInfer = 2 := by
  refine ⟨rfl, rfl, by decide, by decide⟩

/-! ## ScratchPad slot-length invariant (C8) -/

lemma listResize_length (l : List ℚ) (n : Nat) (v : ℚ) : (listResize l n v).length = n := by
  unfold listResize
  split
  · simp
    omega
  · simp
    omega

/-- C8 claim is false on the code: starting from capacity `1` with one
input `("x", [1])` and one output `("y", [1])`, two `next` calls
double the capacity to `2`, but the output slot keeps its construction
length `1 ≠ 2 × 1`: `next` re-reserves only the input slots. -/
theorem scratchpad_output_not_regrown :
    (((ScratchPad.new_with_size [("x", [1])] [("y", [1])] 1).next 0).next 1).capacity = 2 ∧
    (((ScratchPad.new_with_size [("x", [1])] [("y", [1])] 1).next 0).next 1).outputs
      = [{ name := "y", data := [0], count := 1 }] ∧
    ¬ ([(0 : ℚ)].length = 2 * 1) := by
  refine ⟨by decide, by decide, by decide⟩

/-- C8 amended: at construction every input and output slot has data
length `capacity × per_sample_count`; `next` preserves that invariant
for the *input* slots (re-reserving them to the doubled capacity when
it grows), while it never touches the output slots, which keep their
construction length until they are sized elsewhere. -/
theorem scratchpad_slot_length_invariant :
    (∀ (ins outs : List (String × List Nat)) (cap : Nat),
      (∀ s ∈ (ScratchPad.new_with_size ins outs cap).inputs,
        s.data.length = (ScratchPad.new_with_size ins outs cap).capacity * s.count) ∧
      (∀ s ∈ (ScratchPad.new_with_size ins outs cap).outputs,
        s.data.length = cap * s.count)) ∧
    (∀ (pad : ScratchPad) (id : Nat),
      (∀ s ∈ pad.inputs, s.data.length = pad.capacity * s.count) →
      ∀ s ∈ (pad.next id).inputs, s.data.length = (pad.next id).capacity * s.count) ∧
    (∀ (pad : ScratchPad) (id : Nat), (pad.next id).outputs = pad.outputs) := by
  refine ⟨?_, ?_, ?_⟩
  · intro ins outs cap
    constructor <;>
    · intro s hs
      simp only [ScratchPad.new_with_size, List.mem_map] at hs
      obtain ⟨p, -, rfl⟩ := hs
      simp [ScratchPadData.new, ScratchPadData.reserve, listResize_length,
        ScratchPad.new_with_size]
  · intro pad id hinv s hs
    simp only [ScratchPad.next] at hs ⊢
    by_cases hgrow : pad.capacity < pad.batch_size + 1
    · simp only [if_pos hgrow] at hs ⊢
      simp only [List.mem_map] at hs
      obtain ⟨s0, -, rfl⟩ := hs
      simp [ScratchPadData.reserve, listResize_length]
    · simp only [if_neg hgrow] at hs ⊢
      exact hinv s hs
  · intro pad id
    simp only [ScratchPad.next]
    split <;> rfl

/-- Witness for `scratchpad_slot_length_invariant`: the input-slot
invariant survives a growing `next` on a concrete capacity-1 pad. -/
theorem scratchpad_slot_length_invariant_witness :
    ∀ s ∈ (((ScratchPad.new_with_size [("x", [1])] [("y", [1])] 1).next 0).next 1).inputs,
      s.data.length
        = (((ScratchPad.new_with_size [("x", [1])] [("y", [1])] 1).next 0).next 1).capacity
            * s.count :=
  scratchpad_slot_length_invariant.2.1
    ((ScratchPad.new_with_size [("x", [1])] [("y", [1])] 1).next 0) 1 (by decide)

/-! ## `can_run_in_time` bucket selection (C6) -/

lemma takeWhile_append_all {α : Type} {p : α → Bool} {l1 l2 : List α}
    (h : ∀ x ∈ l1, p x = true) :
    (l1 ++ l2).takeWhile p = l1 ++ l2.takeWhile p := by
  induction l1 with
  | nil => simp
  | cons a tl ih =>
    have ha : p a = true := h a (List.mem_cons_self a tl)
    simp only [List.cons_append, List.takeWhile_cons_of_pos ha]
    rw [ih fun x hx => h x (List.mem_cons_of_mem a hx)]

lemma takeWhile_all {α : Type} {p : α → Bool} {l : List α}
    (h : ∀ x ∈ l, p x = true) : l.takeWhile p = l := by
  have := @takeWhile_append_all α p l [] h
  simpa using this

lemma scaled_mean_exact {b : TimingBucket} {n : Nat} (h : b.size = n) (hn : 1 ≤ n) :
    b.scaled_mean n = b.mean := by
  unfold TimingBucket.scaled_mean
  rw [h, mul_div_assoc, div_self, mul_one]
  exact Nat.cast_ne_zero.mpr (by omega)

/-- C6 claim, stated over the sorted bucket list: with no samples the
check answers `true`; a bucket whose size matches `n` exactly decides
by comparing its mean with the budget; when `n` exceeds every recorded
size the largest bucket's mean is scaled; otherwise the bucket with
the smallest size `≥ n` is located and the neighbouring bucket below
it (or the bucket itself when none is below) has its mean scaled by
`size / n` for the comparison. -/
theorem can_run_in_time_cases
    (timings : List TimingBucket) (n : Nat) (budget : ℚ)
    (hsort : timings.Pairwise (fun a b => a.size < b.size))
    (hn : 1 ≤ n) :
    (timings = [] → can_run_in_time timings n budget = true) ∧
    (∀ b ∈ timings, b.size = n →
      can_run_in_time timings n budget = decide (b.mean ≤ budget)) ∧
    (timings ≠ [] → (∀ x ∈ timings, x.size < n) →
      can_run_in_time timings n budget
        = decide ((timings.getD (timings.length - 1) default).scaled_mean n ≤ budget)) ∧
    (∀ pre b post, timings = pre ++ b :: post →
      (∀ x ∈ pre, x.size < n) → n < b.size →
      can_run_in_time timings n budget
        = decide ((if pre.isEmpty then b else pre.getD (pre.length - 1) default).scaled_mean n
            ≤ budget)) := by
  refine ⟨?_, ?_, ?_, ?_⟩
  · intro h
    subst h
    rfl
  · intro b hb hbn
    obtain ⟨pre, post, rfl⟩ := List.append_of_mem hb
    rw [List.pairwise_append] at hsort
    obtain ⟨-, hbp_sorted, hcross⟩ := hsort
    have hpre_lt : ∀ x ∈ pre, x.size < n := by
      intro x hx
      have := hcross x hx b (List.mem_cons_self b post)
      omega
    have hpost_gt : ∀ x ∈ post, n < x.size := by
      intro x hx
      have := (List.pairwise_cons.mp hbp_sorted).1 x hx
      omega
    have hne : (pre ++ b :: post).isEmpty = false := by simp
    have htw : ((pre ++ b :: post).takeWhile fun x => decide (x.size ≤ n)) = pre ++ [b] := by
      rw [takeWhile_append_all fun x hx => by
        simpa using Nat.le_of_lt (hpre_lt x hx)]
      congr 1
      rw [List.takeWhile_cons_of_pos (by simp [hbn])]
      rcases post with _ | ⟨c, post2⟩
      · rfl
      · rw [List.takeWhile_cons_of_neg (by simpa using hpost_gt c (List.mem_cons_self c post2))]
    simp only [can_run_in_time, hne, Bool.false_eq_true, if_false, htw]
    rcases post with _ | ⟨c, post2⟩
    · rw [if_pos rfl]
      have hidx : (pre ++ [b]).length - 1 = pre.length := by simp
      rw [hidx, List.getD_append_right pre [b] default pre.length (le_refl _)]
      simp only [Nat.sub_self, List.getD_cons_zero]
      rw [scaled_mean_exact hbn hn]
    · have hlen : ¬ (pre ++ [b]).length = (pre ++ b :: c :: post2).length := by
        simp only [List.length_append, List.length_cons, List.length_nil]
        omega
      rw [if_neg hlen]
      have helem : (pre ++ b :: c :: post2).getD (pre ++ [b]).length default = c := by
        simp only [List.length_append, List.length_cons, List.length_nil]
        rw [List.getD_append_right pre _ default (pre.length + 1) (by omega)]
        simp
      rw [helem]
      have hcne : ¬ c.size = n := by
        have := hpost_gt c (List.mem_cons_self c post2)
        omega
      rw [if_neg hcne]
      have hp0 : ¬ (pre ++ [b]).length = 0 := by simp
      rw [if_neg hp0]
      have hprev : (pre ++ b :: c :: post2).getD ((pre ++ [b]).length - 1) default = b := by
        simp only [List.length_append, List.length_cons, List.length_nil]
        rw [List.getD_append_right pre _ default (pre.length + 1 - 1) (by omega)]
        simp
      rw [hprev, scaled_mean_exact hbn hn]
  · intro hne hall
    have htw := @takeWhile_all TimingBucket (fun x => decide (x.size ≤ n)) timings
      fun x hx => by simpa using Nat.le_of_lt (hall x hx)
    have hemp : timings.isEmpty = false := by
      rcases timings with _ | _
      · exact absurd rfl hne
      · rfl
    simp only [can_run_in_time, hemp, Bool.false_eq_true, if_false, htw]
    simp
  · intro pre b post heq hpre hb
    subst heq
    have hne : (pre ++ b :: post).isEmpty = false := by simp
    have htw : ((pre ++ b :: post).takeWhile fun x => decide (x.size ≤ n)) = pre := by
      rw [takeWhile_append_all fun x hx => by
        simpa using Nat.le_of_lt (hpre x hx)]
      rw [List.takeWhile_cons_of_neg (by simpa using hb)]
      simp
    simp only [can_run_in_time, hne, Bool.false_eq_true, if_false, htw]
    have hlen : ¬ pre.length = (pre ++ b :: post).length := by
      simp only [List.length_append, List.length_cons]
      omega
    rw [if_neg hlen]
    have helem : (pre ++ b :: post).getD pre.length default = b := by
      rw [List.getD_append_right pre _ default pre.length (le_refl _)]
      simp
    rw [helem]
    have hbne : ¬ b.size = n := by omega
    rw [if_neg hbne]
    rcases pre with _ | ⟨a, pre2⟩
    · simp
    · have hp0 : ¬ (a :: pre2).length = 0 := by simp
      rw [if_neg hp0]
      have hprev : ((a :: pre2) ++ b :: post).getD ((a :: pre2).length - 1) default
          = (a :: pre2).getD ((a :: pre2).length - 1) default := by
        rw [List.getD_append _ _ default _ (by simp)]
      rw [hprev]
      simp

/-- Witness for `can_run_in_time_cases`: two buckets of sizes 1 and 4,
queued batch size 2 — the non-exact middle case scales the bucket
below. -/
theorem can_run_in_time_cases_witness :
    can_run_in_time [⟨1, 2⟩, ⟨4, 3⟩] 2 1
      = decide ((TimingBucket.mk 1 2).scaled_mean 2 ≤ (1 : ℚ)) :=
  (can_run_in_time_cases [⟨1, 2⟩, ⟨4, 3⟩] 2 1 (by decide) (by decide)).2.2.2
    [⟨1, 2⟩] ⟨4, 3⟩ [] rfl (by decide) (by decide)

/-! ## Ticket sequence monotonicity (C9) -/

/-- C9 claim is false on the code: `Runtime::clear` resets
`ticket_generation` to `0` (runtime.rs line 294), so an `add_inferer`
followed by `clear` strictly decreases the counter. -/
theorem clear_resets_ticket_generation :
    (RuntimeM.new.add_inferer (fun _ => true) 0).1.ticket_generation = 1 ∧
    (RuntimeM.new.add_inferer (fun _ => true) 0).1.clear.1.ticket_generation = 0 ∧
    ¬ (1 : Nat) ≤ 0 :=
  ⟨rfl, rfl, by decide⟩

/-- C9 amended: `ticket_generation` never decreases under
`add_inferer`, `push`, `infer_single`, `run`, `run_for` and
`remove_inferer`; `clear` is the exception — it resets the counter to
`0`, together with dropping every model and ticket. -/
theorem ticket_generation_monotonic_except_clear :
    (∀ (r : RuntimeM) (canRun : ℚ → Bool) (cost : ℚ),
      r.ticket_generation ≤ (r.add_inferer canRun cost).1.ticket_generation) ∧
    (∀ (r r2 : RuntimeM) (brain : Nat), r.push brain = some r2 →
      r.ticket_generation ≤ r2.ticket_generation) ∧
    (∀ (r r2 : RuntimeM) (brain : Nat), r.infer_single brain = some r2 →
      r.ticket_generation ≤ r2.ticket_generation) ∧
    (∀ (r : RuntimeM), r.ticket_generation ≤ r.run.1.ticket_generation) ∧
    (∀ (r : RuntimeM) (dur : ℚ) (r2 : RuntimeM) (ex : List Nat),
      r.run_for dur = some (r2, ex) → r.ticket_generation ≤ r2.ticket_generation) ∧
    (∀ (r : RuntimeM) (brain : Nat) (p : RuntimeM × Bool),
      r.remove_inferer brain = some p → r.ticket_generation ≤ p.1.ticket_generation) ∧
    (∀ (r : RuntimeM), r.clear.1.ticket_generation = 0) := by
  refine ⟨?_, ?_, ?_, ?_, ?_, ?_, ?_⟩
  · intro r canRun cost
    exact Nat.le_succ _
  · intro r r2 brain h
    unfold RuntimeM.push at h
    split at h
    · cases h; exact le_refl _
    · exact absurd h (by simp)
  · intro r r2 brain h
    unfold RuntimeM.infer_single at h
    split at h
    · cases h; exact le_refl _
    · exact absurd h (by simp)
  · intro r
    exact le_refl _
  · intro r dur r2 ex h
    unfold RuntimeM.run_for at h
    rcases hgo : run_for_go r.models r.queue dur false with _ | ⟨e, d, du⟩
    · rw [hgo] at h
      exact absurd h (by simp)
    · rw [hgo] at h
      cases h
      exact Nat.le_add_right _ _
  · intro r brain p h
    unfold RuntimeM.remove_inferer at h
    rcases hf : r.models.find? (fun m => m.id == brain) with _ | m
    · rw [hf] at h
      exact absurd h (by simp)
    · rw [hf] at h
      cases h
      exact le_refl _
  · intro r
    rfl


/-- Witness for `ticket_generation_monotonic_except_clear`: a
`run_for` with an all-deferred queue keeps the counter at `1`. -/
theorem ticket_generation_monotonic_witness :
    (RuntimeM.new.add_inferer (fun _ => true) 0).1.ticket_generation
      ≤ rwit.ticket_generation :=
  ticket_generation_monotonic_except_clear.2.2.2.2.1
    (RuntimeM.new.add_inferer (fun _ => true) 0).1 0 rwit [] rfl

/-! ## Fairness of `run_for` (C5, C4) -/

lemma mem_insertTicket {x t : Ticket} :
    ∀ {l : List Ticket}, x ∈ insertTicket t l ↔ x = t ∨ x ∈ l := by
  intro l
  induction l with
  | nil => simp [insertTicket]
  | cons u rest ih =>
    simp only [insertTicket]
    split
    · simp [List.mem_cons]
    · simp only [List.mem_cons, ih]
      tauto

lemma mem_foldl_insertTicket {x : Ticket} :
    ∀ (ts init : List Ticket),
      (x ∈ ts.foldl (fun q t => insertTicket t q) init ↔ x ∈ init ∨ x ∈ ts) := by
  intro ts
  induction ts with
  | nil => simp
  | cons t rest ih =>
    intro init
    simp only [List.foldl_cons, ih, mem_insertTicket, List.mem_cons]
    tauto

lemma mem_freshTickets {t : Ticket} :
    ∀ (gen : Nat) (bs : List Nat), t ∈ freshTickets gen bs →
      gen ≤ t.seq ∧ t.brain ∈ bs := by
  intro gen bs
  induction bs generalizing gen with
  | nil => simp [freshTickets]
  | cons b rest ih =>
    intro h
    simp only [freshTickets, List.mem_cons] at h
    rcases h with rfl | h
    · exact ⟨le_refl _, by simp⟩
    · obtain ⟨h1, h2⟩ := ih (gen + 1) h
      exact ⟨by omega, by simp [h2]⟩

/-- What one pass of the `run_for` loop does with the popped tickets:
deferred tickets come from the queue, executed brains come from queue
tickets, and (when each brain holds at most one ticket) a deferred
ticket's brain was not executed. -/
lemma run_for_go_split (models : List ModelT) :
    ∀ (queue : List Ticket) (dur : ℚ) (anyExec : Bool)
      {e : List Nat} {d : List Ticket} {du : ℚ},
      run_for_go models queue dur anyExec = some (e, d, du) →
      (∀ t ∈ d, t ∈ queue) ∧ (∀ b ∈ e, b ∈ queue.map Ticket.brain) ∧
      ((queue.map Ticket.brain).Nodup → ∀ t ∈ d, t.brain ∉ e) := by
  intro queue
  induction queue with
  | nil =>
    intro dur anyExec e d du h
    simp only [run_for_go, Option.some.injEq, Prod.mk.injEq] at h
    obtain ⟨rfl, rfl, -⟩ := h
    simp
  | cons t rest ih =>
    intro dur anyExec e d du h
    simp only [run_for_go] at h
    rcases hf : models.find? (fun m => m.id == t.brain) with _ | m
    · simp only [hf] at h
      exact absurd h (by simp)
    · simp only [hf] at h
      by_cases hcond : (!m.hasData || (anyExec && !m.canRun dur)) = true
    -- deferred branch
      · rw [if_pos hcond] at h
        rcases hrec : run_for_go models rest dur anyExec with _ | tri
        · rw [hrec] at h
          exact absurd h (by simp)
        · rw [hrec] at h
          obtain ⟨e2, d2, du2⟩ := tri
          simp only [Option.some.injEq, Prod.mk.injEq] at h
          obtain ⟨rfl, rfl, -⟩ := h
          obtain ⟨g1, g2, g3⟩ := ih dur anyExec hrec
          refine ⟨?_, ?_, ?_⟩
          · intro x hx
            rcases List.mem_cons.mp hx with rfl | hx
            · exact List.mem_cons_self _ _
            · exact List.mem_cons_of_mem _ (g1 x hx)
          · intro b hb
            exact List.mem_cons_of_mem _ (g2 b hb)
          · intro hnd x hx
            have hnd2 : (rest.map Ticket.brain).Nodup := (List.nodup_cons.mp hnd).2
            have hhead : t.brain ∉ rest.map Ticket.brain := (List.nodup_cons.mp hnd).1
            rcases List.mem_cons.mp hx with rfl | hx
            · intro hmem
              exact hhead (g2 x.brain hmem)
            · exact g3 hnd2 x hx
    -- executed branch
      · rw [if_neg hcond] at h
        rcases hrec : run_for_go models rest (max (dur - m.cost) 0) true with _ | tri
        · rw [hrec] at h
          exact absurd h (by simp)
        · rw [hrec] at h
          obtain ⟨e2, d2, du2⟩ := tri
          simp only [Option.some.injEq, Prod.mk.injEq] at h
          obtain ⟨rfl, rfl, -⟩ := h
          obtain ⟨g1, g2, g3⟩ := ih (max (dur - m.cost) 0) true hrec
          refine ⟨?_, ?_, ?_⟩
          · intro x hx
            exact List.mem_cons_of_mem _ (g1 x hx)
          · intro b hb
            rcases List.mem_cons.mp hb with rfl | hb
            · exact List.mem_cons_self _ _
            · exact List.mem_cons_of_mem _ (g2 b hb)
          · intro hnd x hx
            have hnd2 : (rest.map Ticket.brain).Nodup := (List.nodup_cons.mp hnd).2
            have hhead : t.brain ∉ rest.map Ticket.brain := (List.nodup_cons.mp hnd).1
            intro hmem
            rcases List.mem_cons.mp hmem with heq | hmem
            · have : x.brain ∈ rest.map Ticket.brain :=
                List.mem_map_of_mem Ticket.brain (g1 x hx)
              rw [heq] at this
              exact hhead this
            · exact g3 hnd2 x hx hmem

/-- C5 claim, stated: in every reachable runtime all queued sequence
numbers are below `ticket_generation` and each brain holds one ticket;
after a sequential `run_for`, every ticket of an executed model has a
strictly greater sequence than every ticket of a deferred
(not-executed) model, because deferred tickets keep their original
sequence and executed models receive freshly incremented ones. -/
theorem run_for_executed_tickets_fresher
    (r : RuntimeM) (dur : ℚ) (r2 : RuntimeM) (executed : List Nat)
    (hseq : ∀ t ∈ r.queue, t.seq < r.ticket_generation)
    (hnodup : (r.queue.map Ticket.brain).Nodup)
    (h : r.run_for dur = some (r2, executed)) :
    ∀ t1 ∈ r2.queue, t1.brain ∈ executed →
      ∀ t2 ∈ r2.queue, t2.brain ∉ executed → t2.seq < t1.seq := by
  unfold RuntimeM.run_for at h
  rcases hgo : run_for_go r.models r.queue dur false with _ | tri
  · rw [hgo] at h
    exact absurd h (by simp)
  · rw [hgo] at h
    obtain ⟨e, d, du⟩ := tri
    simp only [Option.some.injEq, Prod.mk.injEq] at h
    obtain ⟨hr2, rfl⟩ := h
    obtain ⟨hd_sub, he_sub, hdisj⟩ := run_for_go_split r.models r.queue dur false hgo
    have hqueue : r2.queue
        = (d ++ freshTickets r.ticket_generation e).foldl (fun q t => insertTicket t q) [] := by
      rw [← hr2]
    intro t1 ht1 hb1 t2 ht2 hb2
    have hm1 : t1 ∈ d ∨ t1 ∈ freshTickets r.ticket_generation e := by
      have := (mem_foldl_insertTicket _ _).mp (hqueue ▸ ht1)
      simpa using this
    have hm2 : t2 ∈ d ∨ t2 ∈ freshTickets r.ticket_generation e := by
      have := (mem_foldl_insertTicket _ _).mp (hqueue ▸ ht2)
      simpa using this
    have ht1fresh : r.ticket_generation ≤ t1.seq := by
      rcases hm1 with hm | hm
      · exact absurd hb1 (hdisj hnodup t1 hm)
      · exact (mem_freshTickets _ _ hm).1
    have ht2old : t2.seq < r.ticket_generation := by
      rcases hm2 with hm | hm
      · exact hseq t2 (hd_sub t2 hm)
      · exact absurd (mem_freshTickets _ _ hm).2 hb2
    omega



/-- Witness for `run_for_executed_tickets_fresher` on `rC5`: the
fresh ticket of executed brain 1 outranks the deferred ticket of
brain 0. -/
theorem run_for_executed_tickets_fresher_witness :
    (⟨0, 0⟩ : Ticket).seq < (⟨2, 1⟩ : Ticket).seq :=
  run_for_executed_tickets_fresher rC5 0 rC5out [1] (by decide) (by decide) rfl
    ⟨2, 1⟩ (by decide) (by decide) ⟨0, 0⟩ (by decide) (by decide)


/-- C4 claim is false on the code: with two models holding queued work
and no timing data (`can_run_in_time` answers `true` when there are no
samples), sequential `run_for(Duration::ZERO)` executes *both* models,
so the result holds two BrainIds, not exactly one. -/
theorem run_for_zero_two_brains :
    (rC4.run_for 0).map (fun p => p.2) = some [0, 1] ∧ ¬ ([0, 1].length = 1) :=
  ⟨rfl, by decide⟩

/-- Once something has executed (`any_executed = true`), a queue whose
tickets all point at models with empty batchers or failing
`can_run_in_time(budget)` is entirely deferred, in order. -/
lemma run_for_go_all_defer (models : List ModelT) (dur : ℚ) :
    ∀ (q : List Ticket),
      (∀ t ∈ q, ∃ m, models.find? (fun mm => mm.id == t.brain) = some m ∧
        (m.hasData = false ∨ m.canRun dur = false)) →
      run_for_go models q dur true = some ([], q, dur) := by
  intro q
  induction q with
  | nil =>
    intro _
    rfl
  | cons t rest ih =>
    intro h
    obtain ⟨m, hm, hcase⟩ := h t (List.mem_cons_self t rest)
    simp only [run_for_go, hm]
    have hcond : (!m.hasData || (true && !m.canRun dur)) = true := by
      rcases hcase with h1 | h1 <;> simp [h1]
    rw [if_pos hcond, ih fun t ht => h t (List.mem_cons_of_mem _ ht)]

/-- Tickets whose models hold no queued work are deferred without
consuming budget or flipping `any_executed`. -/
lemma run_for_go_skip_empty (models : List ModelT) (dur : ℚ) (anyExec : Bool) :
    ∀ (q1 qrest : List Ticket),
      (∀ t ∈ q1, ∃ m, models.find? (fun mm => mm.id == t.brain) = some m ∧
        m.hasData = false) →
      run_for_go models (q1 ++ qrest) dur anyExec
        = (run_for_go models qrest dur anyExec).map fun p => (p.1, q1 ++ p.2.1, p.2.2) := by
  intro q1
  induction q1 with
  | nil =>
    intro qrest _
    rcases hq : run_for_go models qrest dur anyExec with _ | p
    · simp [hq]
    · simp [hq]
  | cons t q1x ih =>
    intro qrest h
    obtain ⟨m, hm, hdata⟩ := h t (List.mem_cons_self _ _)
    simp only [List.cons_append, run_for_go, hm]
    have hcond : (!m.hasData || (anyExec && !m.canRun dur)) = true := by simp [hdata]
    rw [if_pos hcond]
    simp only [List.append_eq]
    rw [ih qrest fun t ht => h t (List.mem_cons_of_mem _ ht)]
    rcases hq : run_for_go models qrest dur anyExec with _ | p
    · simp [hq]
    · simp [hq]

/-- C4 amended: sequential `run_for(Duration::ZERO)` always executes
the longest-waiting model with queued work (the first such model in
ticket pop order), greedily even on a zero budget; every *later* model
is deferred when its batcher is empty or its `can_run_in_time(0)` is
false — so exactly one BrainId is returned precisely when every other
model with work reports it cannot run in zero time (models without
timing samples report they can, and then also run). -/
theorem run_for_zero_budget_single
    (r : RuntimeM) (q1 q2 : List Ticket) (t0 : Ticket) (m0 : ModelT)
    (hq : r.queue = q1 ++ t0 :: q2)
    (hq1 : ∀ t ∈ q1, ∃ m, r.models.find? (fun mm => mm.id == t.brain) = some m ∧
      m.hasData = false)
    (hm0 : r.models.find? (fun mm => mm.id == t0.brain) = some m0)
    (hm0d : m0.hasData = true)
    (hm0c : 0 ≤ m0.cost)
    (hq2 : ∀ t ∈ q2, ∃ m, r.models.find? (fun mm => mm.id == t.brain) = some m ∧
      (m.hasData = false ∨ m.canRun 0 = false)) :
    ∃ r2, r.run_for 0 = some (r2, [t0.brain]) := by
  have hdur : max ((0 : ℚ) - m0.cost) 0 = 0 := max_eq_right (sub_nonpos.mpr hm0c)
  have hstep : run_for_go r.models (t0 :: q2) 0 false = some ([t0.brain], q2, 0) := by
    simp only [run_for_go, hm0]
    have hcond : ¬ (!m0.hasData || (false && !m0.canRun 0)) = true := by simp [hm0d]
    rw [if_neg hcond, hdur, run_for_go_all_defer r.models 0 q2 hq2]
  have hgo : run_for_go r.models r.queue 0 false = some ([t0.brain], q1 ++ q2, 0) := by
    rw [hq, run_for_go_skip_empty r.models 0 false q1 (t0 :: q2) hq1, hstep]
    rfl
  unfold RuntimeM.run_for
  rw [hgo]
  exact ⟨_, rfl⟩


/-- Witness for `run_for_zero_budget_single` on `rC4b`: only brain 0
runs. -/
theorem run_for_zero_budget_single_witness :
    ∃ r2, rC4b.run_for 0 = some (r2, [0]) :=
  run_for_zero_budget_single rC4b [] [⟨1, 1⟩] ⟨0, 0⟩ ⟨0, true, fun _ => true, 0⟩
    rfl (by simp) rfl rfl (le_refl 0)
    (fun t ht => by
      rcases List.mem_singleton.mp ht with rfl
      exact ⟨⟨1, true, fun _ => false, 0⟩, rfl, Or.inr rfl⟩)

end Cervo
